import Mathlib

/-!
Formal model of `job_search_bot.py` (class `LinkedInJobSearchBot`).

External effects (HTTP fetching, HTML parsing, pandas CSV I/O, logging and
pacing delays) are abstracted away, as the design document itself treats
them as external collaborators:

* a `Card` carries the outcome of the per-field selector lookups
  (`_extract_text` / `_extract_url` / `_extract_date` / `_extract_salary`)
  on one result fragment, each as an `Option String` (`none` = no selector
  produced usable text);
* the description fetch `_get_job_description` is an abstract pure
  function `getDesc : String → String` (in the script it runs after the
  dedup check; as a pure function the ordering is unobservable);
* a persisted CSV file is a `List JobRecord`, and the output directory is
  a `List (List JobRecord)` in the order `os.listdir` yields the files;
* the cooperative stop flag `should_stop` is monotone (the SIGINT handler
  only ever sets it to `True`), so a run is parametrised by the first
  loop-check at which the flag is observed true, counted by a global
  index `stopAt` that advances once per card considered.
-/

/-- A job record: the keys of the `job` dict built in `_search_linkedin`,
which are also the columns persisted to CSV. -/
structure JobRecord where
  title : String
  company : String
  location : String
  description : String
  url : String
  date_posted : String
  salary : String
deriving DecidableEq, Repr

/-- One result fragment (a job-card div): the outcome of each of the
field-extraction helpers on that fragment. `none` models the helper
returning `None` (no selector matched / no valid text). -/
structure Card where
  title : Option String
  company : Option String
  location : Option String
  url : Option String
  datePosted : Option String
  salary : Option String
deriving DecidableEq, Repr

/-- Python `str.lower()`, modelled character by character. -/
def pyLower (s : String) : String :=
  ⟨s.data.map Char.toLower⟩

/-- Python `str.strip()`: drop leading and trailing whitespace. -/
def pyStrip (s : String) : String :=
  ⟨((s.data.dropWhile Char.isWhitespace).reverse.dropWhile Char.isWhitespace).reverse⟩

/-- Function `_create_job_identifier`: lowercase and strip each of the three fields
and join them with `|`. -/
def create_job_identifier (title company location : String) : String :=
  pyStrip (pyLower title) ++ "|" ++ pyStrip (pyLower company) ++ "|" ++
    pyStrip (pyLower location)

/-- The identifier `_create_job_identifier` assigns to a record's own
title/company/location fields. -/
def identifierOf (r : JobRecord) : String :=
  create_job_identifier r.title r.company r.location

/-- The raw (unnormalised) `(title, company, location)` column triple, as
compared by `drop_duplicates(subset=['title','company','location'])` in
`_load_previous_results`. -/
def rawTriple (r : JobRecord) : String × String × String :=
  (r.title, r.company, r.location)

/-- Python truthiness test `not x` on an optional string: true exactly on
`None` and on the empty string. -/
def pyFalsy : Option String → Bool
  | none => true
  | some s => s.isEmpty

/-- The per-card extraction step of `_search_linkedin` (lines 122–181):
`title`, `company`, `job_location`, `url` come from the fallback-selector
helpers; a falsy title or url skips the card; a falsy company becomes
`"Company not specified"`; a falsy location becomes the search location;
`date_posted` and `salary` default to their sentinels. -/
def extractRecord (getDesc : String → String) (searchLocation : String)
    (card : Card) : Option JobRecord :=
  match card.title, card.url with
  | some t, some u =>
    if t.isEmpty || u.isEmpty then none
    else
      some {
        title := t
        company :=
          match card.company with
          | some c => if c.isEmpty then "Company not specified" else c
          | none => "Company not specified"
        location :=
          match card.location with
          | some l => if l.isEmpty then searchLocation else l
          | none => searchLocation
        description := getDesc u
        url := u
        date_posted := card.datePosted.getD "No date"
        salary := card.salary.getD "Salary not specified" }
  | _, _ => none

/-- The deduplication step of `_search_linkedin` (lines 158–168) lifted
over a batch of candidate records — the spec's `filter_new`: a candidate
whose `job_id` or `url` is already in `seen_jobs` is skipped; an admitted
candidate has both its url and its `job_id` added to `seen_jobs` before
the next candidate is examined. Returns the admitted records and the
final seen-set. -/
def filter_new : List JobRecord → List String → List JobRecord × List String
  | [], seen => ([], seen)
  | r :: rs, seen =>
    if identifierOf r ∈ seen ∨ r.url ∈ seen then filter_new rs seen
    else
      let out := filter_new rs (r.url :: identifierOf r :: seen)
      (r :: out.1, out.2)

/-- The card loop of `_search_linkedin` with the cooperative stop flag:
`i` is the global check counter, and the flag reads true at the checks
with index `≥ stopAt` (`should_stop` is monotone). The check sits at the
top of each iteration (`if self.should_stop: break`), so a record whose
processing has begun is always completed. -/
def searchLoopStop (getDesc : String → String) (searchLocation : String)
    (stopAt : Nat) :
    List Card → Nat → List String → List JobRecord × List String
  | [], _, seen => ([], seen)
  | card :: rest, i, seen =>
    if stopAt ≤ i then ([], seen)
    else
      match extractRecord getDesc searchLocation card with
      | none => searchLoopStop getDesc searchLocation stopAt rest (i + 1) seen
      | some j =>
        if identifierOf j ∈ seen ∨ j.url ∈ seen then
          searchLoopStop getDesc searchLocation stopAt rest (i + 1) seen
        else
          let out := searchLoopStop getDesc searchLocation stopAt rest (i + 1)
            (j.url :: identifierOf j :: seen)
          (j :: out.1, out.2)

/-- Function `_search_linkedin`: only the first 10 job cards of the results page
are iterated (`job_cards[:10]`), starting at global check counter `i`. -/
def search_linkedin (getDesc : String → String) (searchLocation : String)
    (cards : List Card) (stopAt : Nat) (i : Nat) (seen : List String) :
    List JobRecord × List String :=
  searchLoopStop getDesc searchLocation stopAt (cards.take 10) i seen

/-- Function `_save_jobs`: append a batch to the accumulated `jobs_df`, first
removing candidates whose url occurs in `jobs_df` and then those whose
identifier occurs among `jobs_df`'s identifiers (both filters are skipped
when `jobs_df` is empty, as in the script). -/
def save_jobs (jobs_df : List JobRecord) (jobs : List JobRecord) :
    List JobRecord :=
  if jobs.isEmpty then jobs_df
  else if jobs_df.isEmpty then jobs_df ++ jobs
  else
    let new1 := jobs.filter fun j => !(jobs_df.any fun e => e.url == j.url)
    let existing := jobs_df.map identifierOf
    let new2 := new1.filter fun j => !(decide (identifierOf j ∈ existing))
    jobs_df ++ new2

/-- The mutable bot state threaded through a run: the accumulated
`jobs_df` and the `seen_jobs` set. -/
structure BotState where
  jobs_df : List JobRecord
  seen : List String
deriving DecidableEq, Repr

/-- The nested query/location loops of `search_jobs`, flattened to a list
of (job type, location, fetched cards) searches. The stop flag is checked
before each search (the script checks it before each query and before
each location; both checks read the same monotone flag) and `t` advances
by one per card check inside `_search_linkedin`. -/
def runSearches (getDesc : String → String) (stopAt : Nat) :
    List (String × String × List Card) → Nat → BotState → BotState
  | [], _, st => st
  | (_jt, loc, cards) :: rest, t, st =>
    if stopAt ≤ t then st
    else
      let out := search_linkedin getDesc loc cards stopAt t st.seen
      runSearches getDesc stopAt rest (t + (cards.take 10).length)
        { jobs_df := save_jobs st.jobs_df out.1, seen := out.2 }

/-- The url column of every CSV file in the output directory, concatenated,
as recomputed inside `_save_to_csv`. -/
def previousUrls (files : List (List JobRecord)) : List String :=
  (files.map fun f => f.map fun r => r.url).flatten

/-- Function `_save_to_csv`: nothing is written when `jobs_df` is empty; otherwise
the previously persisted urls are recomputed from every existing file,
`jobs_df` is filtered down to records whose url is in no existing file,
and nothing is written when that residual is empty; otherwise exactly the
residual is written to one new timestamped file (`some` = the single file
written, `none` = no file written). -/
def save_to_csv (jobs_df : List JobRecord) (files : List (List JobRecord)) :
    Option (List JobRecord) :=
  if jobs_df.isEmpty then none
  else
    let newJobs := jobs_df.filter fun j => !(decide (j.url ∈ previousUrls files))
    if newJobs.isEmpty then none else some newJobs

/-- The output directory after a `_save_to_csv` call: unchanged when no
file is written, otherwise extended with the one new file. -/
def persistedFiles (jobs_df : List JobRecord) (files : List (List JobRecord)) :
    List (List JobRecord) :=
  match save_to_csv jobs_df files with
  | none => files
  | some out => files ++ [out]

/-- Function `search_jobs`: run all searches (concatenating each batch into
`jobs_df` via `_save_jobs`), then — in the `finally` block, so also after
a cooperative stop — call `_save_to_csv` exactly when the run added at
least one record (`final_job_count - initial_job_count > 0`). Returns the
final state and the file written, if any. -/
def search_jobs (getDesc : String → String) (stopAt : Nat)
    (searches : List (String × String × List Card)) (st0 : BotState)
    (files : List (List JobRecord)) :
    BotState × Option (List JobRecord) :=
  let st := runSearches getDesc stopAt searches 0 st0
  if st0.jobs_df.length < st.jobs_df.length then (st, save_to_csv st.jobs_df files)
  else (st, none)

/-- Pandas drop_duplicates keeping first occurrences: keep each row whose key
has not occurred earlier (nor in the accumulator `ks`). -/
def dropDupBy {α : Type} [DecidableEq α] (key : JobRecord → α) :
    List JobRecord → List α → List JobRecord
  | [], _ => []
  | r :: rs, ks =>
    if key r ∈ ks then dropDupBy key rs ks
    else r :: dropDupBy key rs (key r :: ks)

/-- Function `_load_previous_results`: concatenate every CSV file in the output
directory, then `drop_duplicates` first on the `url` column and then on
the raw `['title','company','location']` columns, keeping first
occurrences. (An empty directory yields the empty frame, which is also
what the pipeline below produces on `[]`.) -/
def load_previous_results (files : List (List JobRecord)) : List JobRecord :=
  dropDupBy rawTriple (dropDupBy (fun r => r.url) files.flatten []) []

-- Concrete records used to exercise `load_previous_results` on a pair
-- whose normalised identifiers collide while the raw triples differ.
def rexA : JobRecord :=
  { title := "A b", company := "c", location := "d",
    description := "x", url := "u1", date_posted := "nd", salary := "ns" }

def rexB : JobRecord :=
  { title := "a B", company := "c", location := "d",
    description := "y", url := "u2", date_posted := "nd", salary := "ns" }

example : create_job_identifier "A b" "c" "d" = "a b|c|d" := by decide

example : identifierOf rexA = identifierOf rexB := by decide

example : load_previous_results [[rexA, rexB]] = [rexA, rexB] := by decide

/-! ### Lemmas about `filter_new` -/

/-- The seen-set only grows along `filter_new`. -/
theorem filter_new_seen_mono (batch : List JobRecord) (seen : List String)
    (s : String) (hs : s ∈ seen) : s ∈ (filter_new batch seen).2 := by
  induction batch generalizing seen with
  | nil => simpa [filter_new] using hs
  | cons q rs ih =>
    by_cases h : identifierOf q ∈ seen ∨ q.url ∈ seen
    · have e : (filter_new (q :: rs) seen).2 = (filter_new rs seen).2 := by
        simp only [filter_new]; rw [if_pos h]
      rw [e]; exact ih seen hs
    · have e : (filter_new (q :: rs) seen).2
          = (filter_new rs (q.url :: identifierOf q :: seen)).2 := by
        simp only [filter_new]; rw [if_neg h]
      rw [e]; exact ih _ (by simp [hs])

/-- An admitted record was fresh: neither its identifier nor its url was in
the starting seen-set. -/
theorem filter_new_mem_not_seen (batch : List JobRecord) (seen : List String)
    (r : JobRecord) (hr : r ∈ (filter_new batch seen).1) :
    identifierOf r ∉ seen ∧ r.url ∉ seen := by
  induction batch generalizing seen with
  | nil => simp [filter_new] at hr
  | cons q rs ih =>
    by_cases h : identifierOf q ∈ seen ∨ q.url ∈ seen
    · have e : (filter_new (q :: rs) seen).1 = (filter_new rs seen).1 := by
        simp only [filter_new]; rw [if_pos h]
      exact ih seen (e ▸ hr)
    · have e : (filter_new (q :: rs) seen).1
          = q :: (filter_new rs (q.url :: identifierOf q :: seen)).1 := by
        simp only [filter_new]; rw [if_neg h]
      rw [e] at hr
      rcases List.mem_cons.mp hr with rfl | hr'
      · push_neg at h; exact h
      · have h2 := ih _ hr'
        refine ⟨fun hc => h2.1 (by simp [hc]), fun hc => h2.2 (by simp [hc])⟩

/-- Every record of the batch leaves at least one of its identities in the
final seen-set (either it was already seen, or it was admitted and both
identities were added). -/
theorem filter_new_ids_in_final (batch : List JobRecord) (seen : List String)
    (r : JobRecord) (hr : r ∈ batch) :
    identifierOf r ∈ (filter_new batch seen).2 ∨
      r.url ∈ (filter_new batch seen).2 := by
  induction batch generalizing seen with
  | nil => simp at hr
  | cons q rs ih =>
    by_cases h : identifierOf q ∈ seen ∨ q.url ∈ seen
    · have e : (filter_new (q :: rs) seen).2 = (filter_new rs seen).2 := by
        simp only [filter_new]; rw [if_pos h]
      rw [e]
      rcases List.mem_cons.mp hr with rfl | hr'
      · rcases h with h | h
        · exact Or.inl (filter_new_seen_mono rs seen _ h)
        · exact Or.inr (filter_new_seen_mono rs seen _ h)
      · exact ih _ hr'
    · have e : (filter_new (q :: rs) seen).2
          = (filter_new rs (q.url :: identifierOf q :: seen)).2 := by
        simp only [filter_new]; rw [if_neg h]
      rw [e]
      rcases List.mem_cons.mp hr with rfl | hr'
      · exact Or.inl (filter_new_seen_mono rs _ _ (by simp))
      · exact ih _ hr'

/-- A batch all of whose records are already covered by the seen-set is
filtered to nothing. -/
theorem filter_new_eq_nil_of_all_seen (batch : List JobRecord)
    (seen : List String)
    (h : ∀ r ∈ batch, identifierOf r ∈ seen ∨ r.url ∈ seen) :
    (filter_new batch seen).1 = [] := by
  induction batch with
  | nil => simp [filter_new]
  | cons q rs ih =>
    have hq := h q (by simp)
    have e : filter_new (q :: rs) seen = filter_new rs seen := by
      simp only [filter_new]; rw [if_pos hq]
    rw [e]
    exact ih fun r hr => h r (List.mem_cons_of_mem _ hr)

/-- Admitted records are pairwise distinct both in url and in normalised
identifier. -/
theorem filter_new_pairwise (batch : List JobRecord) (seen : List String) :
    (filter_new batch seen).1.Pairwise
      (fun a b => a.url ≠ b.url ∧ identifierOf a ≠ identifierOf b) := by
  induction batch generalizing seen with
  | nil => simp [filter_new]
  | cons q rs ih =>
    by_cases h : identifierOf q ∈ seen ∨ q.url ∈ seen
    · have e : (filter_new (q :: rs) seen).1 = (filter_new rs seen).1 := by
        simp only [filter_new]; rw [if_pos h]
      rw [e]; exact ih seen
    · have e : (filter_new (q :: rs) seen).1
          = q :: (filter_new rs (q.url :: identifierOf q :: seen)).1 := by
        simp only [filter_new]; rw [if_neg h]
      rw [e]
      refine List.Pairwise.cons ?_ (ih _)
      intro b hb
      have hnb := filter_new_mem_not_seen rs _ b hb
      refine ⟨fun hc => hnb.2 ?_, fun hc => hnb.1 ?_⟩
      · rw [← hc]; simp
      · rw [← hc]; simp

/-- Unfolding equation for `filter_new` on an already-seen head. -/
theorem filter_new_cons_seen (r : JobRecord) (rs : List JobRecord)
    (seen : List String) (h : identifierOf r ∈ seen ∨ r.url ∈ seen) :
    filter_new (r :: rs) seen = filter_new rs seen := by
  simp only [filter_new]; rw [if_pos h]

/-- Unfolding equation for `filter_new` on a fresh head. -/
theorem filter_new_cons_fresh (r : JobRecord) (rs : List JobRecord)
    (seen : List String) (h : ¬(identifierOf r ∈ seen ∨ r.url ∈ seen)) :
    filter_new (r :: rs) seen
      = ((filter_new rs (r.url :: identifierOf r :: seen)).1.cons r,
         (filter_new rs (r.url :: identifierOf r :: seen)).2) := by
  simp only [filter_new]; rw [if_neg h]

/-- The card loop with the stop flag computes exactly extraction followed
by `filter_new` on the cards examined before the flag reads true: stopping
truncates the input but never discards a record already admitted. -/
theorem searchLoopStop_eq_filter_new (getDesc : String → String)
    (loc : String) (stopAt : Nat) (cards : List Card) (i : Nat)
    (seen : List String) :
    searchLoopStop getDesc loc stopAt cards i seen
      = filter_new
          ((cards.take (stopAt - i)).filterMap (extractRecord getDesc loc))
          seen := by
  induction cards generalizing i seen with
  | nil => simp [searchLoopStop, filter_new]
  | cons card rest ih =>
    by_cases hstop : stopAt ≤ i
    · have h0 : stopAt - i = 0 := Nat.sub_eq_zero_of_le hstop
      have e : searchLoopStop getDesc loc stopAt (card :: rest) i seen
          = ([], seen) := by
        simp only [searchLoopStop]; rw [if_pos hstop]
      rw [e, h0]
      simp [filter_new]
    · have h1 : stopAt - i = (stopAt - (i + 1)) + 1 := by omega
      rw [h1, List.take_succ_cons, List.filterMap_cons]
      cases hext : extractRecord getDesc loc card with
      | none =>
        have e : searchLoopStop getDesc loc stopAt (card :: rest) i seen
            = searchLoopStop getDesc loc stopAt rest (i + 1) seen := by
          simp only [searchLoopStop]; rw [if_neg hstop, hext]
        rw [e]
        exact ih (i + 1) seen
      | some j =>
        by_cases hseen : identifierOf j ∈ seen ∨ j.url ∈ seen
        · have e : searchLoopStop getDesc loc stopAt (card :: rest) i seen
              = searchLoopStop getDesc loc stopAt rest (i + 1) seen := by
            simp only [searchLoopStop]
            rw [if_neg hstop, hext]
            simp only []
            rw [if_pos hseen]
          have e2 : filter_new
                (j :: (rest.take (stopAt - (i + 1))).filterMap
                  (extractRecord getDesc loc)) seen
              = filter_new
                ((rest.take (stopAt - (i + 1))).filterMap
                  (extractRecord getDesc loc)) seen := by
            simp only [filter_new]; rw [if_pos hseen]
          rw [e, e2]
          exact ih (i + 1) seen
        · have e : searchLoopStop getDesc loc stopAt (card :: rest) i seen
              = ((searchLoopStop getDesc loc stopAt rest (i + 1)
                    (j.url :: identifierOf j :: seen)).1.cons j,
                 (searchLoopStop getDesc loc stopAt rest (i + 1)
                    (j.url :: identifierOf j :: seen)).2) := by
            simp only [searchLoopStop]
            rw [if_neg hstop, hext]
            simp only []
            rw [if_neg hseen]
          have e2 : filter_new
                (j :: (rest.take (stopAt - (i + 1))).filterMap
                  (extractRecord getDesc loc)) seen
              = ((filter_new ((rest.take (stopAt - (i + 1))).filterMap
                    (extractRecord getDesc loc))
                    (j.url :: identifierOf j :: seen)).1.cons j,
                 (filter_new ((rest.take (stopAt - (i + 1))).filterMap
                    (extractRecord getDesc loc))
                    (j.url :: identifierOf j :: seen)).2) := by
            simp only [filter_new]; rw [if_neg hseen]
          rw [e, e2, ih (i + 1) (j.url :: identifierOf j :: seen)]

/-- The filter admits at most as many records as the batch holds. -/
theorem filter_new_length_le (batch : List JobRecord) (seen : List String) :
    (filter_new batch seen).1.length ≤ batch.length := by
  induction batch generalizing seen with
  | nil => simp [filter_new]
  | cons q rs ih =>
    by_cases h : identifierOf q ∈ seen ∨ q.url ∈ seen
    · have e : (filter_new (q :: rs) seen).1 = (filter_new rs seen).1 := by
        simp only [filter_new]; rw [if_pos h]
      rw [e]; exact (ih seen).trans (Nat.le_succ _)
    · have e : (filter_new (q :: rs) seen).1
          = q :: (filter_new rs (q.url :: identifierOf q :: seen)).1 := by
        simp only [filter_new]; rw [if_neg h]
      rw [e]; simpa using Nat.succ_le_succ (ih _)

/-! ### Lemmas about `_save_jobs`, `runSearches` and `_save_to_csv` -/

/-- Saving only ever appends to the accumulated `jobs_df`. -/
theorem save_jobs_append (jobs_df jobs : List JobRecord) :
    ∃ extra, save_jobs jobs_df jobs = jobs_df ++ extra := by
  unfold save_jobs
  split_ifs with h1 h2
  · exact ⟨[], by simp⟩
  · exact ⟨jobs, rfl⟩
  · exact ⟨_, rfl⟩

/-- A whole run only ever appends to the accumulated `jobs_df`, whatever
the stop schedule. -/
theorem runSearches_jobs_append (getDesc : String → String) (stopAt : Nat)
    (searches : List (String × String × List Card)) (t : Nat)
    (st : BotState) :
    ∃ extra,
      (runSearches getDesc stopAt searches t st).jobs_df
        = st.jobs_df ++ extra := by
  induction searches generalizing t st with
  | nil => exact ⟨[], by simp [runSearches]⟩
  | cons s rest ih =>
    obtain ⟨jt, loc, cards⟩ := s
    by_cases h : stopAt ≤ t
    · refine ⟨[], ?_⟩
      have e : runSearches getDesc stopAt ((jt, loc, cards) :: rest) t st
          = st := by
        simp only [runSearches]; rw [if_pos h]
      rw [e]; simp
    · have e : runSearches getDesc stopAt ((jt, loc, cards) :: rest) t st
          = runSearches getDesc stopAt rest (t + (cards.take 10).length)
              { jobs_df := save_jobs st.jobs_df
                  (search_linkedin getDesc loc cards stopAt t st.seen).1,
                seen := (search_linkedin getDesc loc cards stopAt t st.seen).2 } := by
        simp only [runSearches]; rw [if_neg h]
      obtain ⟨e1, he1⟩ := save_jobs_append st.jobs_df
        (search_linkedin getDesc loc cards stopAt t st.seen).1
      obtain ⟨e2, he2⟩ := ih (t + (cards.take 10).length)
        { jobs_df := save_jobs st.jobs_df
            (search_linkedin getDesc loc cards stopAt t st.seen).1,
          seen := (search_linkedin getDesc loc cards stopAt t st.seen).2 }
      refine ⟨e1 ++ e2, ?_⟩
      rw [e, he2]
      show save_jobs st.jobs_df _ ++ e2 = st.jobs_df ++ (e1 ++ e2)
      rw [he1, List.append_assoc]

/-- Unfolded form of `_save_to_csv` (its `let` reduced). -/
theorem save_to_csv_eq (jobs_df : List JobRecord)
    (files : List (List JobRecord)) :
    save_to_csv jobs_df files
      = if jobs_df.isEmpty then none
        else if (jobs_df.filter
            fun x => !(decide (x.url ∈ previousUrls files))).isEmpty then none
        else some (jobs_df.filter
            fun x => !(decide (x.url ∈ previousUrls files))) := rfl

/-- Membership in the file written by `_save_to_csv`: a record is written
iff it is in `jobs_df` and its url occurs in no existing file. -/
theorem mem_save_to_csv (jobs_df : List JobRecord)
    (files : List (List JobRecord)) (j : JobRecord) :
    (∃ out, save_to_csv jobs_df files = some out ∧ j ∈ out)
      ↔ j ∈ jobs_df ∧ j.url ∉ previousUrls files := by
  have hfil : ∀ a : JobRecord,
      (a ∈ jobs_df.filter fun x => !(decide (x.url ∈ previousUrls files)))
        ↔ a ∈ jobs_df ∧ a.url ∉ previousUrls files := by
    intro a; simp [List.mem_filter]
  rw [save_to_csv_eq]
  split_ifs with h1 h2
  · rw [List.isEmpty_iff] at h1
    subst h1
    simp
  · rw [List.isEmpty_iff] at h2
    constructor
    · rintro ⟨out, hout, -⟩
      cases hout
    · rintro ⟨hmem, hurl⟩
      have hj : j ∈ jobs_df.filter
          fun x => !(decide (x.url ∈ previousUrls files)) :=
        (hfil j).mpr ⟨hmem, hurl⟩
      rw [h2] at hj
      simp at hj
  · constructor
    · rintro ⟨out, hout, hj⟩
      rw [Option.some.injEq] at hout
      exact (hfil j).mp (hout ▸ hj)
    · rintro ⟨hmem, hurl⟩
      exact ⟨_, rfl, (hfil j).mpr ⟨hmem, hurl⟩⟩

/-! ### Lemmas about `drop_duplicates` -/

/-- Deduplication keeps a sublist of its input. -/
theorem dropDupBy_sublist {α : Type} [DecidableEq α] (key : JobRecord → α)
    (l : List JobRecord) (ks : List α) :
    (dropDupBy key l ks).Sublist l := by
  induction l generalizing ks with
  | nil => simp [dropDupBy]
  | cons r rs ih =>
    by_cases h : key r ∈ ks
    · have e : dropDupBy key (r :: rs) ks = dropDupBy key rs ks := by
        simp only [dropDupBy]; rw [if_pos h]
      rw [e]
      exact (ih ks).trans (List.sublist_cons_self r rs)
    · have e : dropDupBy key (r :: rs) ks
          = r :: dropDupBy key rs (key r :: ks) := by
        simp only [dropDupBy]; rw [if_neg h]
      rw [e]
      exact (ih _).cons₂ r

/-- No kept row carries a key from the accumulator. -/
theorem dropDupBy_key_not_mem {α : Type} [DecidableEq α]
    (key : JobRecord → α) (l : List JobRecord) (ks : List α)
    (r : JobRecord) (hr : r ∈ dropDupBy key l ks) : key r ∉ ks := by
  induction l generalizing ks with
  | nil => simp [dropDupBy] at hr
  | cons q rs ih =>
    by_cases h : key q ∈ ks
    · have e : dropDupBy key (q :: rs) ks = dropDupBy key rs ks := by
        simp only [dropDupBy]; rw [if_pos h]
      exact ih ks (e ▸ hr)
    · have e : dropDupBy key (q :: rs) ks
          = q :: dropDupBy key rs (key q :: ks) := by
        simp only [dropDupBy]; rw [if_neg h]
      rw [e] at hr
      rcases List.mem_cons.mp hr with rfl | hr'
      · exact h
      · have h2 := ih (key q :: ks) hr'
        exact fun hc => h2 (by simp [hc])

/-- The kept rows have pairwise distinct keys. -/
theorem dropDupBy_pairwise {α : Type} [DecidableEq α] (key : JobRecord → α)
    (l : List JobRecord) (ks : List α) :
    (dropDupBy key l ks).Pairwise fun a b => key a ≠ key b := by
  induction l generalizing ks with
  | nil => simp [dropDupBy]
  | cons q rs ih =>
    by_cases h : key q ∈ ks
    · have e : dropDupBy key (q :: rs) ks = dropDupBy key rs ks := by
        simp only [dropDupBy]; rw [if_pos h]
      rw [e]; exact ih ks
    · have e : dropDupBy key (q :: rs) ks
          = q :: dropDupBy key rs (key q :: ks) := by
        simp only [dropDupBy]; rw [if_neg h]
      rw [e]
      refine List.Pairwise.cons ?_ (ih _)
      intro b hb hc
      exact dropDupBy_key_not_mem key rs _ b hb (by simp [hc.symm])

/-- Every input row's key survives among the kept rows, provided it was
not already in the accumulator. -/
theorem dropDupBy_complete {α : Type} [DecidableEq α] (key : JobRecord → α)
    (l : List JobRecord) (ks : List α) (r : JobRecord) (hr : r ∈ l)
    (hks : key r ∉ ks) : ∃ s ∈ dropDupBy key l ks, key s = key r := by
  induction l generalizing ks with
  | nil => simp at hr
  | cons q rs ih =>
    by_cases h : key q ∈ ks
    · have e : dropDupBy key (q :: rs) ks = dropDupBy key rs ks := by
        simp only [dropDupBy]; rw [if_pos h]
      rw [e]
      rcases List.mem_cons.mp hr with rfl | hr'
      · exact absurd h hks
      · exact ih ks hr' hks
    · have e : dropDupBy key (q :: rs) ks
          = q :: dropDupBy key rs (key q :: ks) := by
        simp only [dropDupBy]; rw [if_neg h]
      rw [e]
      rcases List.mem_cons.mp hr with rfl | hr'
      · exact ⟨r, by simp, rfl⟩
      · by_cases hkey : key r = key q
        · exact ⟨q, by simp, hkey.symm⟩
        · obtain ⟨s, hs, hks'⟩ := ih (key q :: ks) hr'
            (by simp [List.mem_cons, hkey, hks])
          exact ⟨s, by simp [hs], hks'⟩

/-- On rows with pairwise distinct keys, none of which is in the
accumulator, `drop_duplicates` keeps everything. -/
theorem dropDupBy_eq_self {α : Type} [DecidableEq α] (key : JobRecord → α)
    (l : List JobRecord) (ks : List α)
    (hp : l.Pairwise fun a b => key a ≠ key b)
    (hks : ∀ r ∈ l, key r ∉ ks) : dropDupBy key l ks = l := by
  induction l generalizing ks with
  | nil => simp [dropDupBy]
  | cons q rs ih =>
    obtain ⟨hhead, htail⟩ := List.pairwise_cons.mp hp
    have hq : key q ∉ ks := hks q (by simp)
    have e : dropDupBy key (q :: rs) ks
        = q :: dropDupBy key rs (key q :: ks) := by
      simp only [dropDupBy]; rw [if_neg hq]
    rw [e]
    congr 1
    refine ih (key q :: ks) htail ?_
    intro r hr
    simp only [List.mem_cons]
    rintro (hc | hc)
    · exact hhead r hr hc.symm
    · exact hks r (by simp [hr]) hc

/-! ### The claims -/

/-- C1: two candidate records whose urls match or whose normalised
(lowercased/trimmed title, company, location) identifiers match are
treated as duplicates by the dedup check of `_search_linkedin`: when the
first is fresh with respect to the seen-set it is admitted, and the later
one — in particular one with a different url but an identical normalised
triple — is filtered out. -/
theorem dedup_identity_equivalence (r1 r2 : JobRecord) (seen : List String)
    (hid : identifierOf r1 ∉ seen) (hurl : r1.url ∉ seen)
    (hdup : r1.url = r2.url ∨ identifierOf r1 = identifierOf r2) :
    (filter_new [r1, r2] seen).1 = [r1] := by
  have h1 : ¬(identifierOf r1 ∈ seen ∨ r1.url ∈ seen) := by
    rintro (h | h)
    exacts [hid h, hurl h]
  have h2 : identifierOf r2 ∈ r1.url :: identifierOf r1 :: seen ∨
      r2.url ∈ r1.url :: identifierOf r1 :: seen := by
    rcases hdup with h | h
    · right; rw [← h]; exact List.mem_cons_self _ _
    · left; rw [← h]; exact List.mem_cons_of_mem _ (List.mem_cons_self _ _)
  have enil : (filter_new [r2] (r1.url :: identifierOf r1 :: seen)).1 = [] :=
    filter_new_eq_nil_of_all_seen [r2] _ (fun r hr => by
      rw [List.mem_singleton] at hr; subst hr; exact h2)
  rw [filter_new_cons_fresh r1 [r2] seen h1]
  show r1 :: (filter_new [r2] (r1.url :: identifierOf r1 :: seen)).1 = [r1]
  rw [enil]

/-- Witness for C1 at a concrete pair: different urls, identical
normalised triples, empty seen-set. -/
theorem dedup_identity_equivalence_witness :
    (filter_new
      [{ title := "Ab", company := "c", location := "d", description := "x",
         url := "u1", date_posted := "nd", salary := "ns" },
       { title := "ab ", company := "c", location := "d", description := "y",
         url := "u2", date_posted := "nd", salary := "ns" }] []).1
      = [{ title := "Ab", company := "c", location := "d", description := "x",
           url := "u1", date_posted := "nd", salary := "ns" }] :=
  dedup_identity_equivalence _ _ [] (by decide) (by decide)
    (Or.inr (by decide))

/-- C2: running `filter_new` a second time on the same batch, against the
seen-set produced by the first run, admits nothing. -/
theorem filter_new_idempotent (batch : List JobRecord) (seen : List String) :
    (filter_new batch (filter_new batch seen).2).1 = [] :=
  filter_new_eq_nil_of_all_seen batch _
    (fun r hr => filter_new_ids_in_final batch seen r hr)

/-- C8: two records with the same normalised triple but distinct urls in
one batch (in that order): the first fresh one is admitted, its url and
identifier are immediately added to the seen-set, and the second is
rejected within the same batch. -/
theorem same_batch_collision (r1 r2 : JobRecord) (rs : List JobRecord)
    (seen : List String)
    (hid : identifierOf r1 = identifierOf r2) (hurl : r1.url ≠ r2.url)
    (h1 : identifierOf r1 ∉ seen) (h2 : r1.url ∉ seen) :
    (filter_new (r1 :: r2 :: rs) seen).1
        = r1 :: (filter_new rs (r1.url :: identifierOf r1 :: seen)).1 ∧
      r2 ∉ (filter_new (r1 :: r2 :: rs) seen).1 ∧
      r1.url ∈ (filter_new (r1 :: r2 :: rs) seen).2 ∧
      identifierOf r1 ∈ (filter_new (r1 :: r2 :: rs) seen).2 := by
  have hc1 : ¬(identifierOf r1 ∈ seen ∨ r1.url ∈ seen) := by
    rintro (h | h)
    exacts [h1 h, h2 h]
  have hc2 : identifierOf r2 ∈ r1.url :: identifierOf r1 :: seen ∨
      r2.url ∈ r1.url :: identifierOf r1 :: seen := by
    left; rw [← hid]; exact List.mem_cons_of_mem _ (List.mem_cons_self _ _)
  have e1 := filter_new_cons_fresh r1 (r2 :: rs) seen hc1
  have e2 := filter_new_cons_seen r2 rs (r1.url :: identifierOf r1 :: seen) hc2
  refine ⟨?_, ?_, ?_, ?_⟩
  · rw [e1]
    show r1 :: (filter_new (r2 :: rs) (r1.url :: identifierOf r1 :: seen)).1
        = r1 :: (filter_new rs (r1.url :: identifierOf r1 :: seen)).1
    rw [e2]
  · rw [e1]
    show r2 ∉ r1 :: (filter_new (r2 :: rs) (r1.url :: identifierOf r1 :: seen)).1
    rw [e2]
    intro hmem
    rcases List.mem_cons.mp hmem with hc | hc
    · exact hurl (by rw [hc])
    · have := filter_new_mem_not_seen rs _ r2 hc
      exact this.1 (by rw [← hid]; simp)
  · rw [e1]
    show r1.url ∈ (filter_new (r2 :: rs) (r1.url :: identifierOf r1 :: seen)).2
    exact filter_new_seen_mono _ _ _ (List.mem_cons_self _ _)
  · rw [e1]
    show identifierOf r1 ∈
        (filter_new (r2 :: rs) (r1.url :: identifierOf r1 :: seen)).2
    exact filter_new_seen_mono _ _ _
      (List.mem_cons_of_mem _ (List.mem_cons_self _ _))

/-- Witness for C8 at a concrete pair with an empty tail and empty
seen-set. -/
theorem same_batch_collision_witness :
    (filter_new
        [{ title := "E f", company := "g", location := "h",
           description := "x", url := "w1", date_posted := "nd",
           salary := "ns" },
         { title := "e F", company := "g", location := "h",
           description := "y", url := "w2", date_posted := "nd",
           salary := "ns" }] []).1
      = [{ title := "E f", company := "g", location := "h",
           description := "x", url := "w1", date_posted := "nd",
           salary := "ns" }] ∧
    ({ title := "e F", company := "g", location := "h", description := "y",
       url := "w2", date_posted := "nd", salary := "ns" } : JobRecord)
      ∉ (filter_new
        [{ title := "E f", company := "g", location := "h",
           description := "x", url := "w1", date_posted := "nd",
           salary := "ns" },
         { title := "e F", company := "g", location := "h",
           description := "y", url := "w2", date_posted := "nd",
           salary := "ns" }] []).1 := by
  have h := same_batch_collision
    { title := "E f", company := "g", location := "h", description := "x",
      url := "w1", date_posted := "nd", salary := "ns" }
    { title := "e F", company := "g", location := "h", description := "y",
      url := "w2", date_posted := "nd", salary := "ns" }
    [] [] (by decide) (by decide) (by decide) (by decide)
  exact ⟨by rw [h.1]; rfl, h.2.1⟩

/-- C10: `_search_linkedin` iterates `job_cards[:10]`, so one search
processes at most the first 10 result fragments — it yields at most 10
candidate records and its result is unchanged by truncating the page to
its first 10 cards. -/
theorem search_first_ten_only (getDesc : String → String) (loc : String)
    (cards : List Card) (stopAt i : Nat) (seen : List String) :
    (search_linkedin getDesc loc cards stopAt i seen).1.length ≤ 10 ∧
      search_linkedin getDesc loc cards stopAt i seen
        = search_linkedin getDesc loc (cards.take 10) stopAt i seen := by
  constructor
  · rw [search_linkedin, searchLoopStop_eq_filter_new]
    refine (filter_new_length_le _ _).trans ?_
    refine (List.length_filterMap_le _ _).trans ?_
    rw [List.take_take, List.length_take]
    omega
  · rw [search_linkedin, search_linkedin, List.take_take]
    norm_num

/-- C4: per-fragment fallback behaviour of the Extractor: an inextractable
company yields the sentinel `"Company not specified"`, an inextractable
location falls back to the search location, and an inextractable (falsy)
title or url silently discards the whole fragment. -/
theorem extractor_fallbacks (getDesc : String → String) (card : Card)
    (loc : String) :
    (pyFalsy card.title = true ∨ pyFalsy card.url = true →
       extractRecord getDesc loc card = none) ∧
    (pyFalsy card.title = false → pyFalsy card.url = false →
       pyFalsy card.company = true →
       ∃ j, extractRecord getDesc loc card = some j ∧
         j.company = "Company not specified") ∧
    (pyFalsy card.title = false → pyFalsy card.url = false →
       pyFalsy card.location = true →
       ∃ j, extractRecord getDesc loc card = some j ∧ j.location = loc) := by
  obtain ⟨t, c, l, u, d, s⟩ := card
  refine ⟨?_, ?_, ?_⟩
  · rintro (h | h)
    · cases t with
      | none =>
        cases u <;> rfl
      | some ts =>
        simp only [pyFalsy] at h
        cases u with
        | none => rfl
        | some us => simp [extractRecord, h]
    · cases u with
      | none =>
        cases t <;> rfl
      | some us =>
        simp only [pyFalsy] at h
        cases t with
        | none => rfl
        | some ts => simp [extractRecord, h]
  · intro ht hu hc
    cases t with
    | none => simp [pyFalsy] at ht
    | some ts =>
      cases u with
      | none => simp [pyFalsy] at hu
      | some us =>
        simp only [pyFalsy] at ht hu
        cases hrec : extractRecord getDesc loc
            ⟨some ts, c, l, some us, d, s⟩ with
        | none => simp [extractRecord, ht, hu] at hrec
        | some j =>
          refine ⟨j, rfl, ?_⟩
          simp [extractRecord, ht, hu] at hrec
          subst hrec
          cases c with
          | none => rfl
          | some cs =>
            simp only [pyFalsy] at hc
            simp [hc]
  · intro ht hu hl
    cases t with
    | none => simp [pyFalsy] at ht
    | some ts =>
      cases u with
      | none => simp [pyFalsy] at hu
      | some us =>
        simp only [pyFalsy] at ht hu
        cases hrec : extractRecord getDesc loc
            ⟨some ts, c, l, some us, d, s⟩ with
        | none => simp [extractRecord, ht, hu] at hrec
        | some j =>
          refine ⟨j, rfl, ?_⟩
          simp [extractRecord, ht, hu] at hrec
          subst hrec
          cases l with
          | none => rfl
          | some ls =>
            simp only [pyFalsy] at hl
            simp [hl]

/-- Witness for C4 at three concrete fragments: missing title (discarded),
missing company (sentinel), missing location (search-location fallback). -/
theorem extractor_fallbacks_witness :
    extractRecord (fun _ => "dd") "Berkeley"
        ⟨none, some "c", some "l", some "u", none, none⟩ = none ∧
    (∃ j, extractRecord (fun _ => "dd") "Berkeley"
        ⟨some "t", none, some "l", some "u", none, none⟩ = some j ∧
      j.company = "Company not specified") ∧
    (∃ j, extractRecord (fun _ => "dd") "Berkeley"
        ⟨some "t", some "c", none, some "u", none, none⟩ = some j ∧
      j.location = "Berkeley") :=
  ⟨(extractor_fallbacks (fun _ => "dd")
      ⟨none, some "c", some "l", some "u", none, none⟩ "Berkeley").1
      (Or.inl (by decide)),
   (extractor_fallbacks (fun _ => "dd")
      ⟨some "t", none, some "l", some "u", none, none⟩ "Berkeley").2.1
      (by decide) (by decide) (by decide),
   (extractor_fallbacks (fun _ => "dd")
      ⟨some "t", some "c", none, some "u", none, none⟩ "Berkeley").2.2
      (by decide) (by decide) (by decide)⟩

/-- C5: when every record of `jobs_df` already has its url in some
existing output file — in particular when there is nothing new at all —
`_save_to_csv` writes no file and the output directory is unchanged. -/
theorem persist_empty_noop (jobs_df : List JobRecord)
    (files : List (List JobRecord))
    (h : jobs_df.filter (fun x => !(decide (x.url ∈ previousUrls files)))
      = []) :
    save_to_csv jobs_df files = none ∧
      persistedFiles jobs_df files = files := by
  have hn : save_to_csv jobs_df files = none := by
    rw [save_to_csv_eq, h]
    simp
  refine ⟨hn, ?_⟩
  unfold persistedFiles
  rw [hn]

/-- Witness for C5: the batch's single record is already persisted, so
nothing is written. -/
theorem persist_empty_noop_witness :
    save_to_csv
        [{ title := "t", company := "c", location := "l", description := "x",
           url := "u", date_posted := "nd", salary := "ns" }]
        [[{ title := "t", company := "c", location := "l",
            description := "x", url := "u", date_posted := "nd",
            salary := "ns" }]] = none ∧
      persistedFiles
        [{ title := "t", company := "c", location := "l", description := "x",
           url := "u", date_posted := "nd", salary := "ns" }]
        [[{ title := "t", company := "c", location := "l",
            description := "x", url := "u", date_posted := "nd",
            salary := "ns" }]]
        = [[{ title := "t", company := "c", location := "l",
              description := "x", url := "u", date_posted := "nd",
              salary := "ns" }]] :=
  persist_empty_noop _ _ (by decide)

/-- C6: `_save_to_csv` recomputes the previously persisted urls from all
existing files and writes exactly the residual of `jobs_df` against that
fresh history to its (single, optional) new file: a record is written iff
it is in `jobs_df` and its url occurs in no existing file. -/
theorem persist_refilters_fresh_history (jobs_df : List JobRecord)
    (files : List (List JobRecord)) :
    ∀ j : JobRecord,
      (∃ out, save_to_csv jobs_df files = some out ∧ j ∈ out)
        ↔ j ∈ jobs_df ∧ j.url ∉ previousUrls files :=
  fun j => mem_save_to_csv jobs_df files j

/-- C3: round-trip. Persisting the records admitted by `filter_new` into
an empty output directory and reloading history returns exactly those
records: nothing is lost (the two `drop_duplicates` passes of the loader
remove nothing, because admitted records are pairwise distinct in url and
in identifier, hence in raw triple) and nothing is duplicated. -/
theorem persist_load_round_trip (batch : List JobRecord)
    (seen : List String) :
    load_previous_results (persistedFiles (filter_new batch seen).1 [])
      = (filter_new batch seen).1 := by
  have hpw := filter_new_pairwise batch seen
  have hurl : (filter_new batch seen).1.Pairwise fun a b => a.url ≠ b.url :=
    hpw.imp fun h => h.1
  have htrip : (filter_new batch seen).1.Pairwise
      fun a b => rawTriple a ≠ rawTriple b := by
    refine hpw.imp ?_
    intro a b h hc
    have h1 : a.title = b.title := congrArg (fun p => p.1) hc
    have h2 : a.company = b.company := congrArg (fun p => p.2.1) hc
    have h3 : a.location = b.location := congrArg (fun p => p.2.2) hc
    refine h.2 ?_
    rw [identifierOf, identifierOf, create_job_identifier,
      create_job_identifier, h1, h2, h3]
  by_cases hnil : (filter_new batch seen).1 = []
  · rw [hnil]
    rfl
  · have hne : ¬((filter_new batch seen).1.isEmpty = true) := by
      rw [List.isEmpty_iff]
      exact hnil
    have hfil : (filter_new batch seen).1.filter
        (fun x => !(decide (x.url ∈ previousUrls []))) =
          (filter_new batch seen).1 := by
      apply List.filter_eq_self.mpr
      intro a ha
      simp [previousUrls]
    have hsave : save_to_csv (filter_new batch seen).1 []
        = some (filter_new batch seen).1 := by
      rw [save_to_csv_eq, hfil]
      rw [if_neg hne, if_neg hne]
    have hpf : persistedFiles (filter_new batch seen).1 []
        = [(filter_new batch seen).1] := by
      unfold persistedFiles
      rw [hsave]
      simp
    rw [hpf]
    unfold load_previous_results
    have hflat : ([(filter_new batch seen).1] :
        List (List JobRecord)).flatten = (filter_new batch seen).1 := by
      simp
    rw [hflat]
    rw [dropDupBy_eq_self (fun r => r.url) _ [] hurl (by simp)]
    exact dropDupBy_eq_self rawTriple _ [] htrip (by simp)

/-- Unfolded form of `search_jobs` (its `let` reduced). -/
theorem search_jobs_eq (getDesc : String → String) (stopAt : Nat)
    (searches : List (String × String × List Card)) (st0 : BotState)
    (files : List (List JobRecord)) :
    search_jobs getDesc stopAt searches st0 files
      = if st0.jobs_df.length
            < (runSearches getDesc stopAt searches 0 st0).jobs_df.length
        then (runSearches getDesc stopAt searches 0 st0,
              save_to_csv
                (runSearches getDesc stopAt searches 0 st0).jobs_df files)
        else (runSearches getDesc stopAt searches 0 st0, none) := rfl

/-- C9: cooperative cancellation discards no extracted work. Whatever the
stop schedule, every record the interrupted run accumulated into
`jobs_df` (and whose url is not already persisted) still ends up in the
file written by the `finally` persist step: setting the stop flag never
causes an already-extracted record to be dropped. -/
theorem stop_preserves_results (getDesc : String → String) (stopAt : Nat)
    (searches : List (String × String × List Card)) (st0 : BotState)
    (files : List (List JobRecord)) (j : JobRecord)
    (hmem : j ∈ (runSearches getDesc stopAt searches 0 st0).jobs_df)
    (hnew : j ∉ st0.jobs_df) (hurl : j.url ∉ previousUrls files) :
    ∃ out, (search_jobs getDesc stopAt searches st0 files).2 = some out ∧
      j ∈ out := by
  obtain ⟨extra, hex⟩ := runSearches_jobs_append getDesc stopAt searches 0 st0
  have hj : j ∈ extra := by
    rw [hex] at hmem
    rcases List.mem_append.mp hmem with h | h
    · exact absurd h hnew
    · exact h
  have hgrow : st0.jobs_df.length
      < (runSearches getDesc stopAt searches 0 st0).jobs_df.length := by
    rw [hex, List.length_append]
    have : 0 < extra.length :=
      List.length_pos.mpr fun he => by
        rw [he] at hj
        simp at hj
    omega
  have e : (search_jobs getDesc stopAt searches st0 files).2
      = save_to_csv (runSearches getDesc stopAt searches 0 st0).jobs_df
          files := by
    rw [search_jobs_eq, if_pos hgrow]
  rw [e]
  exact (mem_save_to_csv _ files j).mpr ⟨hmem, hurl⟩

/-- Witness for C9: one search of one card, interrupted after the first
card check (`stopAt = 1`): the extracted record is still persisted. -/
theorem stop_preserves_results_witness :
    ∃ out,
      (search_jobs (fun _ => "dd") 1
          [("software", "Berkeley",
            [⟨some "t", some "c", some "l", some "u", none, none⟩])]
          ⟨[], []⟩ []).2 = some out ∧
        ({ title := "t", company := "c", location := "l",
           description := "dd", url := "u", date_posted := "No date",
           salary := "Salary not specified" } : JobRecord) ∈ out :=
  stop_preserves_results (fun _ => "dd") 1
    [("software", "Berkeley",
      [⟨some "t", some "c", some "l", some "u", none, none⟩])]
    ⟨[], []⟩ []
    { title := "t", company := "c", location := "l", description := "dd",
      url := "u", date_posted := "No date",
      salary := "Salary not specified" }
    (by decide) (by decide) (by decide)

/-- Counterexample to C7 as stated: the loader's second `drop_duplicates`
pass compares the raw `title`/`company`/`location` columns, not the
normalised triple. These two records agree on the normalised identifier
(and differ in url), yet `_load_previous_results` keeps both. -/
theorem load_norm_dedup_counterexample :
    identifierOf rexA = identifierOf rexB ∧ rexA.url ≠ rexB.url ∧
      rawTriple rexA ≠ rawTriple rexB ∧
      load_previous_results [[rexA, rexB]] = [rexA, rexB] := by
  decide

/-- C7 amended: `_load_previous_results` concatenates all files and
removes duplicates first by url and then by the RAW (exact,
case/whitespace-sensitive) `(title, company, location)` triple — not the
normalised one: the result is a sublist of the concatenation, retained
records are pairwise distinct in url and in raw triple, every url of the
concatenation survives the first pass, and every raw triple of the first
pass survives into the result. -/
theorem load_dedup_raw (files : List (List JobRecord)) :
    (load_previous_results files).Sublist files.flatten ∧
      (load_previous_results files).Pairwise (fun a b => a.url ≠ b.url) ∧
      (load_previous_results files).Pairwise
        (fun a b => rawTriple a ≠ rawTriple b) ∧
      (∀ r ∈ files.flatten,
        ∃ s ∈ dropDupBy (fun x => x.url) files.flatten [], s.url = r.url) ∧
      (∀ r ∈ dropDupBy (fun x => x.url) files.flatten [],
        ∃ s ∈ load_previous_results files, rawTriple s = rawTriple r) := by
  refine ⟨?_, ?_, ?_, ?_, ?_⟩
  · exact (dropDupBy_sublist rawTriple _ []).trans
      (dropDupBy_sublist (fun x => x.url) _ [])
  · exact (dropDupBy_pairwise (fun x => x.url) files.flatten []).sublist
      (dropDupBy_sublist rawTriple _ [])
  · exact dropDupBy_pairwise rawTriple _ []
  · intro r hr
    obtain ⟨s, hs, he⟩ :=
      dropDupBy_complete (fun x => x.url) files.flatten [] r hr (by simp)
    exact ⟨s, hs, he⟩
  · intro r hr
    obtain ⟨s, hs, he⟩ := dropDupBy_complete rawTriple _ [] r hr (by simp)
    exact ⟨s, hs, he⟩

/-- Witness for the amended C7, instantiated at the two-record file. -/
theorem load_dedup_raw_witness :
    ∃ s ∈ dropDupBy (fun x => x.url)
        ([[rexA, rexB]] : List (List JobRecord)).flatten [],
      s.url = rexA.url :=
  (load_dedup_raw [[rexA, rexB]]).2.2.2.1 rexA (by decide)
